import Mathlib

/-!
Verification development for the chessy engine core (Svart): a shallow
embedding of the NNUE accumulator (src/engine/nnue/inference.rs), the
principal-variation search driver (src/engine/search.rs) and the UCI
time/option handling (src/uci/handler.rs), together with theorems about
the embedded definitions.

Machine integers are modelled as follows: Rust `i16` lanes of the NNUE
accumulator are `ZMod 65536` (two's-complement wrap-around, as in release
builds); `i32` scores are `Int` (their ranges stay far below 2^31);
`u64` times are `Nat` with an explicit `% 2^64` where wrap-around can
occur; Rust `i32` division truncates toward zero, which is `Int.tdiv`.
-/

set_option linter.unusedVariables false

/-- Truncating division, the semantics of Rust `i32` division. -/
def i32Div (a b : Int) : Int := Int.tdiv a b

/-! ## Basic chess data (mirroring the `cozy_chess` types used by the code) -/

/-- The six piece types, in the order of `cozy_chess::Piece`. -/
inductive Piece
  | Pawn
  | Knight
  | Bishop
  | Rook
  | Queen
  | King
deriving DecidableEq, Repr

/-- The numeric value of a piece, as produced by the `match` in
`weight_column_index`. -/
def Piece.pieceNum : Piece → Nat
  | .Pawn => 0
  | .Knight => 1
  | .Bishop => 2
  | .Rook => 3
  | .Queen => 4
  | .King => 5

/-- The two colors, in the order of `cozy_chess::Color` (`White as usize = 0`). -/
inductive Color
  | White
  | Black
deriving DecidableEq, Repr

/-- `color as usize` in `weight_column_index`. -/
def Color.colorNum : Color → Nat
  | .White => 0
  | .Black => 1

/-- The opposite color (the oracle's color-flip convention). -/
def Color.flip : Color → Color
  | .White => .Black
  | .Black => .White

/-- Squares `A1 = 0, B1 = 1, …, H8 = 63`, rank-major as in `cozy_chess`. -/
abbrev SquareIdx := Fin 64

/-- `cozy_chess`'s `Square::flip_rank`: mirror the rank, keep the file
(`A1 ↔ A8`); on indices this is xor with 56. -/
def flipRank (sq : SquareIdx) : SquareIdx :=
  ⟨sq.val ^^^ 56, by
    have h := sq.isLt
    have h2 : sq.val ^^^ 56 < 2 ^ 6 := Nat.xor_lt_two_pow (by omega) (by omega)
    omega⟩

/-! ## NNUE constants and parameters (src/engine/nnue/inference.rs) -/

def FEATURES : Nat := 768
def HIDDEN : Nat := 256
def CR_MIN : Int := 0
def CR_MAX : Int := 255
def QAB : Int := 255 * 64
def SCALE : Int := 400

/-- Modelled from the spec: `MAX_PLY` lives in `definitions.rs`, which is not
under src/; the spec (§3) recommends 128, and the accumulator stack is
`[Accumulator; MAX_PLY]`. -/
def MAX_PLY : Nat := 128

/-- A 16-bit lane with two's-complement wrap-around arithmetic. -/
abbrev I16 := ZMod 65536

/-- Reinterpret a 16-bit lane as the signed integer it denotes
(`i16` sign semantics, as used when casting to `i32`). -/
def toInt16 (x : I16) : Int :=
  if x.val < 32768 then (x.val : Int) else (x.val : Int) - 65536

/-- The network weights (`struct Parameters`). The concrete values come from
binary blobs linked into the executable and are not part of the source, so
definitions and theorems are parametric in them; the index spaces are
totalised to `Nat`. -/
structure Params where
  feature_weights : Nat → I16
  feature_bias : Nat → I16
  output_weights : Nat → I16
  output_bias : I16

/-! ## Accumulator -/

/-- The accumulator: the hidden layer from both perspectives
(`white[HIDDEN]`, `black[HIDDEN]` of `i16`). -/
@[ext]
structure Accumulator where
  white : Fin HIDDEN → I16
  black : Fin HIDDEN → I16

/-- `Accumulator::default()`: both perspectives equal the feature bias. -/
def Accumulator.bias (P : Params) : Accumulator :=
  { white := fun i => P.feature_bias i.val, black := fun i => P.feature_bias i.val }

def accEquiv : Accumulator ≃ ((Fin HIDDEN → I16) × (Fin HIDDEN → I16)) where
  toFun a := (a.white, a.black)
  invFun p := ⟨p.1, p.2⟩
  left_inv a := rfl
  right_inv p := rfl

instance : AddCommGroup Accumulator := accEquiv.addCommGroup

@[simp] theorem Accumulator.add_white (a b : Accumulator) :
    (a + b).white = fun i => a.white i + b.white i := rfl

@[simp] theorem Accumulator.add_black (a b : Accumulator) :
    (a + b).black = fun i => a.black i + b.black i := rfl

@[simp] theorem Accumulator.sub_white (a b : Accumulator) :
    (a - b).white = fun i => a.white i - b.white i := rfl

@[simp] theorem Accumulator.sub_black (a b : Accumulator) :
    (a - b).black = fun i => a.black i - b.black i := rfl

/-- `update_perspective` inside `Accumulator::efficiently_update`: add
(activate) or subtract (deactivate) the weight column starting at `idx`
to/from the 256 activations. -/
def updatePerspective (P : Params) (activate : Bool) (acc : Fin HIDDEN → I16)
    (idx : Nat) : Fin HIDDEN → I16 :=
  fun i =>
    if activate then acc i + P.feature_weights (idx + i.val)
    else acc i - P.feature_weights (idx + i.val)

/-- `Accumulator::efficiently_update::<ACTIVATE>(idx)`: update both
perspectives with the weight columns located by the index pair. -/
def Accumulator.efficiently_update (P : Params) (activate : Bool)
    (a : Accumulator) (idx : Nat × Nat) : Accumulator :=
  { white := updatePerspective P activate a.white idx.1
    black := updatePerspective P activate a.black idx.2 }

/-- The weight column pair located by an index pair, as an accumulator-shaped
delta vector. -/
def wcol (P : Params) (idx : Nat × Nat) : Accumulator :=
  { white := fun i => P.feature_weights (idx.1 + i.val)
    black := fun i => P.feature_weights (idx.2 + i.val) }

theorem efficiently_update_true (P : Params) (a : Accumulator) (idx : Nat × Nat) :
    a.efficiently_update P true idx = a + wcol P idx := by
  ext i <;> rfl

theorem efficiently_update_false (P : Params) (a : Accumulator) (idx : Nat × Nat) :
    a.efficiently_update P false idx = a - wcol P idx := by
  ext i <;> rfl

/-! ## Feature indexing (`weight_column_index`) -/

/-- `weight_column_index(sq, piece, color)`: white's and black's feature
weight index respectively, each multiplied by `HIDDEN` to locate the weight
column. `COLOR_STRIDE = 64 * 6 = 384`, `PIECE_STRIDE = 64`. -/
def weight_column_index (sq : SquareIdx) (piece : Piece) (color : Color) : Nat × Nat :=
  let p := piece.pieceNum
  let c := color.colorNum
  let white_idx := c * 384 + p * 64 + sq.val
  let black_idx := (1 ^^^ c) * 384 + p * 64 + (flipRank sq).val
  (white_idx * HIDDEN, black_idx * HIDDEN)

/-- A board feature: a piece of a color on a square. -/
abbrev Feature := SquareIdx × Piece × Color

/-- The weight-column index pair of a feature. -/
def featIdx (f : Feature) : Nat × Nat := weight_column_index f.1 f.2.1 f.2.2

/-! ## NNUE state -/

/-- `NNUEState`: the accumulator stack and the index of the live accumulator.
The Rust array `[Accumulator; MAX_PLY]` is modelled as a total function;
the in-bounds obligation of `push` is captured by `NNUEState.pushChecked`. -/
@[ext]
structure NNUEState where
  accumulators : Nat → Accumulator
  current_acc : Nat

/-- `NNUEState::push`: copy the current accumulator to the next slot and
advance `current_acc`. -/
def NNUEState.push (s : NNUEState) : NNUEState :=
  { accumulators := Function.update s.accumulators (s.current_acc + 1)
      (s.accumulators s.current_acc)
    current_acc := s.current_acc + 1 }

/-- `NNUEState::push` with the array bounds check of
`self.accumulators[self.current_acc + 1]` made explicit: the write is in
bounds only when `current_acc + 1 < MAX_PLY`; otherwise the Rust code
aborts with an index-out-of-bounds panic, modelled as `none`. -/
def NNUEState.pushChecked (s : NNUEState) : Option NNUEState :=
  if s.current_acc + 1 < MAX_PLY then some s.push else none

/-- `NNUEState::pop`: decrement `current_acc`. -/
def NNUEState.pop (s : NNUEState) : NNUEState :=
  { s with current_acc := s.current_acc - 1 }

/-- `NNUEState::update_feature::<ACTIVATE>(sq, piece, color)`: efficiently
update the live accumulator with the feature's weight columns. -/
def NNUEState.update_feature (P : Params) (activate : Bool) (s : NNUEState)
    (f : Feature) : NNUEState :=
  { s with
    accumulators := Function.update s.accumulators s.current_acc
      ((s.accumulators s.current_acc).efficiently_update P activate (featIdx f)) }

/-! ## Boards and refresh -/

/-- A board position, abstracted to what the NNUE code reads from it:
`piece_on`/`color_on` for every occupied square. -/
def BoardF : Type := SquareIdx → Option (Piece × Color)

instance : Inhabited BoardF := ⟨fun _ => none⟩

/-- The features of the occupied squares of a board, in square order
(the iteration order of `board.occupied()`). -/
def boardFeatures (b : BoardF) : List Feature :=
  (List.finRange 64).filterMap fun sq => (b sq).map fun pc => (sq, pc.1, pc.2)

/-- The multiset of features of a board. -/
def featM (b : BoardF) : Multiset Feature := (boardFeatures b : Multiset Feature)

/-- The accumulator value produced by `NNUEState::refresh(board)` (and by
`NNUEState::from_board`): the bias, with every occupied square's feature
activated. -/
def refreshAcc (P : Params) (b : BoardF) : Accumulator :=
  (boardFeatures b).foldl
    (fun acc f => acc.efficiently_update P true (featIdx f)) (Accumulator.bias P)

/-- `NNUEState::refresh(board)`: reset the stack (`current_acc = 0`) and
rebuild accumulator 0 from the board. -/
def NNUEState.refresh (P : Params) (s : NNUEState) (b : BoardF) : NNUEState :=
  { accumulators := Function.update s.accumulators 0 (refreshAcc P b)
    current_acc := 0 }

/-- Modelled from the spec: `play_move` (src/engine/position.rs is not under
src/) makes a move on the board and updates the NNUE in lockstep (§4.8):
`nnue.push()`, then for every square/piece/color that changes apply
`nnue.update_feature` with activate = false for removed features and
activate = true for added features. The changes are given as the pair
(removed features, added features). -/
def make_move (P : Params) (s : NNUEState) (ch : List Feature × List Feature) :
    NNUEState :=
  let s := s.push
  let s := ch.1.foldl (fun s f => s.update_feature P false f) s
  ch.2.foldl (fun s f => s.update_feature P true f) s

/-! ## Evaluation (`NNUEState::evaluate`) -/

/-- Clipped ReLU on a signed lane value: `value.clamp(CR_MIN, CR_MAX)`. -/
def crelu (v : Int) : Int := min (max v CR_MIN) CR_MAX

/-- `NNUEState::evaluate(stm)`: the side to move's perspective is paired with
the first `HIDDEN` output weights and the other perspective with the rest;
each clipped activation is multiplied by its weight and summed onto the
output bias, then the total is scaled by `SCALE` and divided by `QAB`
(`i32` division truncates toward zero). -/
def NNUEState.evaluate (P : Params) (s : NNUEState) (stm : Color) : Int :=
  let acc := s.accumulators s.current_acc
  let us := match stm with
    | .White => acc.white
    | .Black => acc.black
  let them := match stm with
    | .White => acc.black
    | .Black => acc.white
  let output : Int := toInt16 P.output_bias
  let output := (List.finRange HIDDEN).foldl
    (fun o i => o + crelu (toInt16 (us i)) * toInt16 (P.output_weights i.val)) output
  let output := (List.finRange HIDDEN).foldl
    (fun o i => o + crelu (toInt16 (them i)) * toInt16 (P.output_weights (HIDDEN + i.val)))
    output
  i32Div (output * SCALE) QAB

/-! ## Score constants and transposition-table scalars (src/engine/search.rs,
src/engine/tt.rs) -/

/-- Modelled from the spec: the score constants live in `definitions.rs`,
which is not under src/. The spec (§3) fixes only the ordering
`NONE > INFINITY > MATE > MATE_IN = MATE - MAX_PLY`; the concrete values
chosen here respect it and fit in `i16` as the TT store requires. -/
def INFINITY : Int := 32001

def MATE : Int := 32000

def MATE_IN : Int := MATE - MAX_PLY

def NONE : Int := 32002

/-- Modelled from the spec: `TB_WIN_IN_PLY` (referenced by the null-move
cap in `pvsearch`) is in `definitions.rs`, not under src/; any bound above
normal scores and below the mate band serves. -/
def TB_WIN_IN_PLY : Int := MATE - 2 * MAX_PLY

/-- Modelled from the spec: `MAX_MOVES_POSITION` is in `definitions.rs`,
not under src/; the spec (§4.4) gives the legal-move bound ~218. -/
def MAX_MOVES_POSITION : Nat := 218

/-- The (source) `LMP_TABLE: [usize; 4] = [0, 5, 8, 18]`. -/
def LMP_TABLE (d : Nat) : Nat := [0, 5, 8, 18].getD d 0

def RFP_MARGIN : Int := 75

/-- The TT bound flag (`TTFlag`). -/
inductive TTFlag
  | Exact
  | LowerBound
  | UpperBound
deriving DecidableEq, Repr

/-- Modelled from the spec: `TT::score_from_tt` (src/engine/tt.rs is not
under src/) undoes the distance-from-root mate encoding (§4.2): subtract
`ply` from mate-band wins, add it to mate-band losses. -/
def score_from_tt (s : Int) (ply : Nat) : Int :=
  if MATE_IN ≤ s then s - ply
  else if s ≤ -MATE_IN then s + ply
  else s

/-- Modelled from the spec: `TT::score_to_tt` (src/engine/tt.rs is not under
src/) applies the distance-from-root mate encoding (§4.2) when storing. -/
def score_to_tt (s : Int) (ply : Nat) : Int :=
  if MATE_IN ≤ s then s + ply
  else if s ≤ -MATE_IN then s - ply
  else s

/-- The flag computed at the exit of `pvsearch` (search.rs lines 346–352):
`LowerBound` if `best_score >= beta`, else `Exact` if
`best_score != old_alpha`, else `UpperBound`. -/
def ttExitFlag (best_score beta old_alpha : Int) : TTFlag :=
  if beta ≤ best_score then .LowerBound
  else if best_score ≠ old_alpha then .Exact
  else .UpperBound

/-- A stored TT entry, at the abstraction the search reads:
best move (possibly absent), encoded score, depth, bound flag. -/
structure TTEntryM (M : Type) where
  mv : Option M
  score : Int
  depth : Nat
  flag : TTFlag

/-- The guarded TT write at the exit of `pvsearch`/`qsearch`
(`if !self.info.stop { self.tt.store(...) }`); the table is modelled as a
map from hash to entry, and no write happens when `stop` is set. -/
def ttStore {M : Type} (tt : Nat → Option (TTEntryM M)) (stop : Bool)
    (hash : Nat) (e : TTEntryM M) : Nat → Option (TTEntryM M) :=
  if stop then tt else Function.update tt hash (some e)

/-! ## Repetition detection (`Search::repetition`, search.rs lines 587–597) -/

/-- `Search::repetition`: walk `game_history` from the most recent entry,
look at at most `halfmove_clock` entries, skip the first of them, and
report whether any of the rest equals the current hash. -/
def repetitionM (game_history : List Nat) (halfmove_clock : Nat) (hash : Nat) :
    Bool :=
  (((game_history.reverse).take halfmove_clock).drop 1).any (fun key => key == hash)

/-! ## UCI time management and options (src/uci/handler.rs) -/

/-- Modelled from the spec: `TIME_OVERHEAD` is in `constants.rs`, which is
not under src/; the spec (§4.11) recommends 50 ms. -/
def TIME_OVERHEAD : Nat := 50

/-- `time_for_move(time, increment, moves_to_go)` (handler.rs lines
299–310): subtract `TIME_OVERHEAD` from `time` (`u64` arithmetic, so with
wrap-around at `2^64`), then return `time / max(moves_to_go, 1)` when
`moves_to_go` is given, else `time / 20 + increment / 2` when an increment
is given, else `time / 20`. The function returns a single `u64` budget. -/
def time_for_move (time : Nat) (increment : Option Nat) (moves_to_go : Option Nat) :
    Nat :=
  let time := (time + (2 ^ 64 - TIME_OVERHEAD)) % 2 ^ 64
  match moves_to_go with
  | some n => time / max n 1
  | none =>
    match increment with
    | some n => time / 20 + n / 2
    | none => time / 20

/-- The `setoption name Hash value <N>` branch of `uci_loop` (handler.rs
lines 72–85), given an already-parsed `u32` value: values above 1024000
are skipped (`continue`), otherwise a transposition table of `N` mebibytes
is allocated. The branch prints nothing in either case; the result is the
(empty) list of printed lines and the size of the table allocated, if any. -/
def handleSetoptionHash (n : Nat) : List String × Option Nat :=
  if 1024000 < n then ([], none) else ([], some n)

/-! ## Helper lemmas about folds and sums -/

theorem foldl_add_map_sum (f : Fin HIDDEN → Int) (l : List (Fin HIDDEN)) (init : Int) :
    l.foldl (fun o i => o + f i) init = init + (l.map f).sum := by
  induction l generalizing init with
  | nil => simp
  | cons x xs ih => simp [ih, add_assoc]

/-- The two perspective vectors read by `evaluate`: the side to move's first. -/
def Accumulator.perspectives (a : Accumulator) (stm : Color) :
    (Fin HIDDEN → I16) × (Fin HIDDEN → I16) :=
  match stm with
  | .White => (a.white, a.black)
  | .Black => (a.black, a.white)

/-! ## Theorems for the claims on the NNUE code -/

/-- C9: the feature-index function maps (A8, Pawn, White) to (14336, 98304),
(H1, Pawn, White) to (1792, 114432), (A1, Pawn, Black) to (98304, 14336)
and (E1, King, White) to (82944, 195584); and for every (square, piece,
color), the black-perspective index equals the white-perspective index of
the color-flipped piece on the rank-flipped square. -/
theorem c9_weight_column_index_values_and_symmetry :
    weight_column_index (56 : Fin 64) Piece.Pawn Color.White = (14336, 98304) ∧
    weight_column_index (7 : Fin 64) Piece.Pawn Color.White = (1792, 114432) ∧
    weight_column_index (0 : Fin 64) Piece.Pawn Color.Black = (98304, 14336) ∧
    weight_column_index (4 : Fin 64) Piece.King Color.White = (82944, 195584) ∧
    ∀ (sq : SquareIdx) (p : Piece) (c : Color),
      (weight_column_index sq p c).2 = (weight_column_index (flipRank sq) p c.flip).1 := by
  refine ⟨by decide, by decide, by decide, by decide, ?_⟩
  intro sq p c
  cases c <;> rfl

/-- C10: activating a feature and then deactivating the same feature leaves
the NNUE state bit-identical (the accumulator lanes wrap in 16 bits, and
addition followed by subtraction of the same weight column is the
identity). -/
theorem c10_feature_roundtrip (P : Params) (s : NNUEState) (f : Feature) :
    (s.update_feature P true f).update_feature P false f = s := by
  ext1
  · show Function.update
      (Function.update s.accumulators s.current_acc
        ((s.accumulators s.current_acc).efficiently_update P true (featIdx f)))
      s.current_acc
      ((Function.update s.accumulators s.current_acc
        ((s.accumulators s.current_acc).efficiently_update P true (featIdx f))
          s.current_acc).efficiently_update P false (featIdx f)) = s.accumulators
    rw [Function.update_same, Function.update_idem, efficiently_update_true,
      efficiently_update_false, add_sub_cancel_right, Function.update_eq_self]
  · rfl

/-- C7: `evaluate` returns the output bias plus, over both perspective
vectors (the side to move's paired with the first 256 output weights, the
other with the last 256), the sum of `clamp(v, 0, 255) * w`, the total
multiplied by `SCALE = 400` and integer-divided by `QAB = 255 * 64`. -/
theorem c7_evaluate_formula (P : Params) (s : NNUEState) (stm : Color) :
    s.evaluate P stm =
      i32Div
        ((toInt16 P.output_bias
          + (∑ i : Fin HIDDEN,
              crelu (toInt16 (((s.accumulators s.current_acc).perspectives stm).1 i))
                * toInt16 (P.output_weights i.val))
          + (∑ i : Fin HIDDEN,
              crelu (toInt16 (((s.accumulators s.current_acc).perspectives stm).2 i))
                * toInt16 (P.output_weights (HIDDEN + i.val)))) * SCALE) QAB := by
  cases stm <;>
    simp only [NNUEState.evaluate, Accumulator.perspectives, foldl_add_map_sum,
      Fin.sum_univ_def]

/-! ## Theorems for the claims on the TT exit flag (C2) -/

/-- C2 counterexample: the claim reads the `Exact` condition as
`best_score` strictly exceeding `old_alpha`; the code tests
`best_score != old_alpha`, and the two disagree whenever the node fails
low below `old_alpha` — at `best_score = -500`, `beta = 10`,
`old_alpha = -10` the code stores `Exact` where the claim demands
`UpperBound`. -/
theorem c2_counterexample :
    ¬ (∀ best_score beta old_alpha : Int,
        ttExitFlag best_score beta old_alpha =
          (if beta ≤ best_score then TTFlag.LowerBound
           else if old_alpha < best_score then TTFlag.Exact
           else TTFlag.UpperBound)) := by
  intro h
  exact absurd (h (-500) 10 (-10)) (by decide)

/-- C2 (amended): at the exit of `pvsearch` the stored flag is `LowerBound`
iff `best_score ≥ beta`; `Exact` iff `best_score < beta` and `best_score`
differs from `old_alpha` (in particular also when `best_score` fell
strictly below `old_alpha`); `UpperBound` exactly when `best_score < beta`
and `best_score = old_alpha`; and no store happens when `stop` is set. -/
theorem c2_tt_exit_flag (best_score beta old_alpha : Int) :
    (ttExitFlag best_score beta old_alpha = TTFlag.LowerBound ↔ beta ≤ best_score) ∧
    (ttExitFlag best_score beta old_alpha = TTFlag.Exact ↔
      best_score < beta ∧ best_score ≠ old_alpha) ∧
    (ttExitFlag best_score beta old_alpha = TTFlag.UpperBound ↔
      best_score < beta ∧ best_score = old_alpha) ∧
    (∀ (tt : Nat → Option (TTEntryM Nat)) (hash : Nat) (e : TTEntryM Nat),
      ttStore tt true hash e = tt) := by
  unfold ttExitFlag ttStore
  split_ifs with h1 h2 <;> simp_all

theorem c2_tt_exit_flag_witness : ttExitFlag (-500) 10 (-10) = TTFlag.Exact :=
  (c2_tt_exit_flag (-500) 10 (-10)).2.1.mpr (by norm_num)

/-! ## Theorems for the claims on the UCI handler (C5, C6) -/

/-- C5: at the failing input `time_left = 1000`, `increment = 100`, no
`movestogo`, the time manager returns the single budget
`(1000 - 50) / 20 + 100 / 2 = 97`; it computes no separate maximum budget
(the claimed maximum `min(time_left / 2, 5 * optimal) = 475` is returned
nowhere, and `SearchType::Time` in handler.rs carries one field while
`Search::iterative_deepening` in search.rs matches `Time(opt, max)`). -/
theorem c5_time_for_move_single_budget :
    time_for_move 1000 (some 100) none = 97 ∧
    time_for_move 1000 (some 100) none = (1000 - TIME_OVERHEAD) / 20 + 100 / 2 := by
  constructor <;> rfl

/-- C6 counterexample: the claim says a table of a size outside `1..=1024`
mebibytes is never allocated; the handler only skips values above
1024000, so `setoption name Hash value 2000` allocates a 2000 MiB table. -/
theorem c6_counterexample :
    ¬ (∀ n : Nat, n < 2 ^ 32 → ¬(1 ≤ n ∧ n ≤ 1024) →
        (handleSetoptionHash n).2 = none) := by
  intro h
  have h2 := h 2000 (by norm_num) (by omega)
  simp [handleSetoptionHash] at h2

/-- C6 (amended): for every parsed `u32` value `N`, the `setoption name
Hash value N` branch prints no reply; values above 1024000 are refused
silently (no table is allocated), and every `N ≤ 1024000` — including 0
and the values in `1025..=1024000` — replaces the transposition table
with one of `N` mebibytes. -/
theorem c6_setoption_hash (n : Nat) (hn : n < 2 ^ 32) :
    (handleSetoptionHash n).1 = [] ∧
    (1024000 < n → (handleSetoptionHash n).2 = none) ∧
    (n ≤ 1024000 → (handleSetoptionHash n).2 = some n) := by
  unfold handleSetoptionHash
  split_ifs with h <;> refine ⟨rfl, ?_, ?_⟩ <;> intro h2 <;> first | rfl | omega

theorem c6_setoption_hash_witness : (handleSetoptionHash 2000).2 = some 2000 :=
  (c6_setoption_hash 2000 (by norm_num)).2.2 (by norm_num)

/-! ## Theorem for claim C3 (accumulator stack overflow at the top ply) -/

/-- An NNUE state whose live accumulator is the topmost stack slot, as
produced by making moves down to ply `MAX_PLY - 1`. -/
def nnueAtTopPly : NNUEState :=
  { accumulators := fun _ => { white := fun _ => 0, black := fun _ => 0 }
    current_acc := MAX_PLY - 1 }

/-- C3: evaluating the code at the failing input. Making a move at ply
`MAX_PLY - 1` calls `NNUEState::push` with `current_acc = MAX_PLY - 1`,
which writes `self.accumulators[MAX_PLY]` in a `[Accumulator; MAX_PLY]`
array: the index is out of bounds, so the claim's "returns a score without
panicking" fails at the boundary the claim itself singles out. -/
theorem c3_push_at_top_ply_out_of_bounds :
    nnueAtTopPly.current_acc = MAX_PLY - 1 ∧
    nnueAtTopPly.pushChecked = none := by
  constructor
  · rfl
  · unfold nnueAtTopPly NNUEState.pushChecked
    norm_num [MAX_PLY]

/-! ## The repetition predicate, characterised (towards C4) -/

theorem repetitionM_iff (hist : List Nat) (hmc : Nat) (hash : Nat) :
    repetitionM hist hmc hash = true ↔
      ∃ i : Nat, 1 ≤ i ∧ i < hmc ∧ hist.reverse[i]? = some hash := by
  unfold repetitionM
  rw [List.any_eq_true]
  constructor
  · rintro ⟨x, hx, hbeq⟩
    have hxh : x = hash := by simpa using hbeq
    subst hxh
    obtain ⟨j, hj⟩ := List.mem_iff_getElem?.mp hx
    rw [List.getElem?_drop, List.getElem?_take] at hj
    by_cases hlt : 1 + j < hmc
    · rw [if_pos hlt] at hj
      exact ⟨1 + j, by omega, hlt, hj⟩
    · rw [if_neg hlt] at hj
      exact absurd hj (by simp)
  · rintro ⟨i, h1, h2, h3⟩
    refine ⟨hash, ?_, by simp⟩
    apply List.mem_iff_getElem?.mpr
    refine ⟨i - 1, ?_⟩
    rw [List.getElem?_drop, List.getElem?_take]
    have hi : 1 + (i - 1) = i := by omega
    rw [hi, if_pos h2]
    exact h3

/-! ## C1: incremental update agrees with refresh, across make/unmake cycles -/

/-- The accumulator-shaped delta contributed by one feature. -/
def featDelta (P : Params) (f : Feature) : Accumulator := wcol P (featIdx f)

theorem update_feature_current (P : Params) (act : Bool) (s : NNUEState)
    (f : Feature) : (s.update_feature P act f).current_acc = s.current_acc := rfl

theorem foldl_update_feature_current (P : Params) (act : Bool) (l : List Feature)
    (s : NNUEState) :
    (l.foldl (fun t f => t.update_feature P act f) s).current_acc = s.current_acc := by
  induction l generalizing s with
  | nil => rfl
  | cons x xs ih => rw [List.foldl_cons, ih, update_feature_current]

theorem foldl_update_true_top (P : Params) (l : List Feature) (s : NNUEState)
    (j : Nat) (hj : j = s.current_acc) :
    (l.foldl (fun t f => t.update_feature P true f) s).accumulators j =
      s.accumulators j + (l.map (featDelta P)).sum := by
  induction l generalizing s with
  | nil => simp
  | cons x xs ih =>
    rw [List.foldl_cons, ih _ (by rw [hj, update_feature_current]), List.map_cons,
      List.sum_cons]
    subst hj
    show Function.update s.accumulators s.current_acc
        ((s.accumulators s.current_acc).efficiently_update P true (featIdx x))
        s.current_acc + _ = _
    rw [Function.update_same, efficiently_update_true, featDelta, add_assoc]

theorem foldl_update_false_top (P : Params) (l : List Feature) (s : NNUEState)
    (j : Nat) (hj : j = s.current_acc) :
    (l.foldl (fun t f => t.update_feature P false f) s).accumulators j =
      s.accumulators j - (l.map (featDelta P)).sum := by
  induction l generalizing s with
  | nil => simp
  | cons x xs ih =>
    rw [List.foldl_cons, ih _ (by rw [hj, update_feature_current]), List.map_cons,
      List.sum_cons]
    subst hj
    show Function.update s.accumulators s.current_acc
        ((s.accumulators s.current_acc).efficiently_update P false (featIdx x))
        s.current_acc - _ = _
    rw [Function.update_same, efficiently_update_false, featDelta, sub_sub]

theorem foldl_update_other (P : Params) (act : Bool) (l : List Feature)
    (s : NNUEState) (j : Nat) (hj : j ≠ s.current_acc) :
    (l.foldl (fun t f => t.update_feature P act f) s).accumulators j =
      s.accumulators j := by
  induction l generalizing s with
  | nil => rfl
  | cons x xs ih =>
    rw [List.foldl_cons, ih _ (by rw [update_feature_current]; exact hj)]
    exact Function.update_noteq hj _ _

theorem make_move_current (P : Params) (s : NNUEState)
    (ch : List Feature × List Feature) :
    (make_move P s ch).current_acc = s.current_acc + 1 := by
  simp only [make_move]
  rw [foldl_update_feature_current, foldl_update_feature_current]
  rfl

theorem make_move_top (P : Params) (s : NNUEState)
    (ch : List Feature × List Feature) :
    (make_move P s ch).accumulators (s.current_acc + 1) =
      s.accumulators s.current_acc - (ch.1.map (featDelta P)).sum
        + (ch.2.map (featDelta P)).sum := by
  simp only [make_move]
  rw [foldl_update_true_top P ch.2
      (ch.1.foldl (fun t f => t.update_feature P false f) s.push)
      (s.current_acc + 1) (by rw [foldl_update_feature_current]; rfl),
    foldl_update_false_top P ch.1 s.push (s.current_acc + 1) rfl]
  show Function.update s.accumulators (s.current_acc + 1)
      (s.accumulators s.current_acc) (s.current_acc + 1) - _ + _ = _
  rw [Function.update_same]

theorem make_move_other (P : Params) (s : NNUEState)
    (ch : List Feature × List Feature) (j : Nat) (hj : j ≠ s.current_acc + 1) :
    (make_move P s ch).accumulators j = s.accumulators j := by
  simp only [make_move]
  rw [foldl_update_other _ _ _ _ _ (by rw [foldl_update_feature_current]; exact hj),
    foldl_update_other _ _ _ _ _ hj]
  exact Function.update_noteq hj _ _

theorem foldl_eff_true (P : Params) (l : List Feature) (a : Accumulator) :
    l.foldl (fun acc f => acc.efficiently_update P true (featIdx f)) a =
      a + (l.map (featDelta P)).sum := by
  induction l generalizing a with
  | nil => simp
  | cons x xs ih =>
    rw [List.foldl_cons, ih, efficiently_update_true, List.map_cons, List.sum_cons,
      featDelta, add_assoc]

/-- `refresh` produces the bias plus the summed deltas of the board's
features. -/
theorem refreshAcc_eq (P : Params) (b : BoardF) :
    refreshAcc P b = Accumulator.bias P + ((featM b).map (featDelta P)).sum := by
  unfold refreshAcc featM
  rw [foldl_eff_true]
  congr 1

theorem consistency_sum (P : Params) {b b2 : BoardF} {rem add : List Feature}
    (h : featM b2 + (rem : Multiset Feature) = featM b + (add : Multiset Feature)) :
    ((featM b2).map (featDelta P)).sum =
      ((featM b).map (featDelta P)).sum + (add.map (featDelta P)).sum
        - (rem.map (featDelta P)).sum := by
  have h2 := congrArg (fun m : Multiset Feature => (m.map (featDelta P)).sum) h
  simp only [Multiset.map_add, Multiset.sum_add, Multiset.map_coe,
    Multiset.sum_coe] at h2
  exact eq_sub_of_add_eq h2

/-- The invariant tying the accumulator stack to the stack of positions it
was built from (most recent first): the stack has one accumulator per
position and every accumulator equals what `refresh` would produce on its
position. Its `k = 0` instance is the claim's "the live accumulator equals
refresh of the current board". -/
def NNUEInv (P : Params) (x : NNUEState × List BoardF) : Prop :=
  x.2.length = x.1.current_acc + 1 ∧
  ∀ k (hk : k < x.2.length),
    x.1.accumulators (x.1.current_acc - k) = refreshAcc P (x.2.get ⟨k, hk⟩)

/-- One step of the search's mutation of the NNUE state: `make` is
`play_move` (push, then the feature updates of the move, §4.8) together
with the resulting board, whose features must be the old board's features
minus the removed plus the added ones; `unmake` is `pop` together with
restoring the previous board. `make` requires a free accumulator slot
(claim C3 covers the missing bounds check). -/
inductive MakeUnmake (P : Params) :
    NNUEState × List BoardF → NNUEState × List BoardF → Prop
  | make (s : NNUEState) (b : BoardF) (bs : List BoardF) (b2 : BoardF)
      (rem add : List Feature)
      (hcons : featM b2 + (rem : Multiset Feature) = featM b + (add : Multiset Feature))
      (hroom : s.current_acc + 1 < MAX_PLY) :
      MakeUnmake P (s, b :: bs) (make_move P s (rem, add), b2 :: b :: bs)
  | unmake (s : NNUEState) (b2 b : BoardF) (bs : List BoardF) :
      MakeUnmake P (s, b2 :: b :: bs) (s.pop, b :: bs)

theorem makeUnmake_preserves (P : Params) {x y : NNUEState × List BoardF}
    (hstep : MakeUnmake P x y) (hinv : NNUEInv P x) : NNUEInv P y := by
  obtain ⟨hlen, hacc⟩ := hinv
  cases hstep with
  | make s b bs b2 rem add hcons hroom =>
    simp only [NNUEInv, List.length_cons, make_move_current] at hlen hacc ⊢
    constructor
    · omega
    · intro k hk
      cases k with
      | zero =>
        rw [Nat.sub_zero, make_move_top]
        have h0 : (0 : Nat) < bs.length + 1 := by omega
        have hb : s.accumulators (s.current_acc - 0) = refreshAcc P b := hacc 0 h0
        rw [Nat.sub_zero] at hb
        show _ = refreshAcc P b2
        rw [hb, refreshAcc_eq, refreshAcc_eq, consistency_sum P hcons]
        abel
      | succ j =>
        have hj : s.current_acc + 1 - (j + 1) ≠ s.current_acc + 1 := by omega
        rw [make_move_other P s _ _ hj]
        have hjlt : j < bs.length + 1 := by omega
        have hb := hacc j hjlt
        have hidx : s.current_acc + 1 - (j + 1) = s.current_acc - j := by omega
        rw [hidx, hb]
        rfl
  | unmake s b2 b bs =>
    simp only [NNUEInv, List.length_cons, NNUEState.pop] at hlen hacc ⊢
    constructor
    · omega
    · intro k hk
      have hk2 : k + 1 < bs.length + 1 + 1 := by omega
      have hb := hacc (k + 1) hk2
      have hidx : s.current_acc - 1 - k = s.current_acc - (k + 1) := by omega
      rw [hidx, hb]
      rfl

/-- C1: for every run of make/unmake steps (each `make` playing a move whose
feature changes are consistent with the resulting board), if the
accumulator stack initially satisfies the refresh invariant — in
particular if the live accumulator equals what `refresh` produces on the
current board — then it satisfies it afterwards, and the accumulator at
the new `current` is element-wise equal to the accumulator `refresh`
produces on the resulting board; this holds after arbitrarily many
make/unmake cycles. -/
theorem c1_incremental_equals_refresh (P : Params)
    (x y : NNUEState × List BoardF)
    (hrun : Relation.ReflTransGen (MakeUnmake P) x y)
    (hinv : NNUEInv P x) :
    NNUEInv P y ∧
      ∀ (h0 : 0 < y.2.length),
        y.1.accumulators y.1.current_acc = refreshAcc P (y.2.get ⟨0, h0⟩) := by
  have hy : NNUEInv P y := by
    induction hrun with
    | refl => exact hinv
    | tail hab hbc ih => exact makeUnmake_preserves P hbc ih
  refine ⟨hy, fun h0 => ?_⟩
  have hb := hy.2 0 h0
  rwa [Nat.sub_zero] at hb

/-- A trivial network, an empty board and its refreshed NNUE state, used to
exercise the claim-C1 theorem on a concrete one-step run. -/
def P0 : Params := ⟨fun _ => 0, fun _ => 0, fun _ => 0, 0⟩

def board0 : BoardF := fun _ => none

def nn0 : NNUEState := ⟨fun _ => refreshAcc P0 board0, 0⟩

theorem c1_incremental_equals_refresh_witness :
    (make_move P0 nn0 ([], [])).accumulators
        ((make_move P0 nn0 ([], [])).current_acc) =
      refreshAcc P0 board0 := by
  have hstep : MakeUnmake P0 (nn0, [board0])
      (make_move P0 nn0 ([], []), [board0, board0]) :=
    MakeUnmake.make nn0 board0 [] board0 [] [] rfl (by norm_num [nn0, MAX_PLY])
  have hinv : NNUEInv P0 (nn0, [board0]) := by
    constructor
    · rfl
    · intro k hk
      have hk0 : k = 0 := Nat.lt_one_iff.mp hk
      subst hk0
      rfl
  exact (c1_incremental_equals_refresh P0 _ _
    (Relation.ReflTransGen.single hstep) hinv).2 (by norm_num)

/-! ## The search driver, embedded (src/engine/search.rs)

The driver is embedded as a fueled state-passing function. Everything the
driver itself computes (windows, scores, flags, pushes and pops, pruning
conditions, the move loop with its breaks) follows search.rs; the parts of
the repository that live outside src/ (cozy_chess board operations,
movegen/picker ordering, the LMR table, the history table internals and
the per-move NNUE feature deltas of `play_move`) are supplied by an
`Oracle`, and the wall clock behind `timer.elapsed() >= max_time` is an
arbitrary predicate of the node counter. -/

/-- `cozy_chess::GameStatus`. -/
inductive GStatus
  | Ongoing
  | Won
  | Drawn
deriving DecidableEq, Repr

/-- The board/move oracle consumed by the search (spec §6.1), together with
the repository components that are not under src/: `featureChanges` is the
feature-delta list of `play_move` (spec §4.8), `allMoves`/`captureMoves`
return the picker's move order (spec §4.4; they may read the killers at
the current ply and the history table), `lmrReduction` is `LMRTable::reduction`,
`historyUpdate` is `History::update_table`, and `timeUp` models the wall
clock test `timer.elapsed() >= max_time` as a predicate of the node count. -/
structure Oracle (B M H : Type) where
  sideToMove : B → Color
  hashOf : B → Nat
  halfmoveClock : B → Nat
  statusOf : B → GStatus
  inCheck : B → Bool
  nonPawnMaterial : B → Color → Bool
  nullMoveD : B → B
  play : B → M → B
  featureChanges : B → M → List Feature × List Feature
  isQuiet : B → M → Bool
  isCapture : B → M → Bool
  allMoves : B → Option M → (Option M × Option M) → H → List M
  captureMoves : B → Option M → (Option M × Option M) → H → List M
  lmrReduction : Int → Nat → Int
  historyUpdate : Bool → B → M → Int → H → H
  timeUp : Nat → Bool

/-- Modelled from the spec: the triangular PV table (src/engine/pv_table.rs
is not under src/), kept as the line from the current ply and its length;
`pvsearch` only clears the length and stores a move ahead of a child line
(§4.5). -/
structure PVTableM (M : Type) where
  length : Nat
  line : List M

def PVTableM.new {M : Type} : PVTableM M := ⟨0, []⟩

def PVTableM.store {M : Type} (pv : PVTableM M) (mv : M) (rest : PVTableM M) :
    PVTableM M :=
  ⟨rest.line.length + 1, mv :: rest.line⟩

/-- The mutable search state threaded through `pvsearch`/`qsearch`:
`SearchInfo` (stop flag, node/seldepth counters, game history, killers,
history table, per-ply eval stack), the transposition table and the NNUE
state. `timerSet` is whether both `timer` and `max_time` are set. -/
structure SState (B M H : Type) where
  stop : Bool
  timerSet : Bool
  nodes : Nat
  seldepth : Nat
  gameHistory : List Nat
  killers : Nat → Option M × Option M
  histTable : H
  stackEval : Nat → Int
  tt : Nat → Option (TTEntryM M)
  nnue : NNUEState

/-- The capture loop of `qsearch` (search.rs lines 422–446): make the move
(board clone + `play_move`), recurse with the flipped window, unmake
(`nnue.pop`), then update best/alpha and break on `score >= beta`. -/
def qsLoop {B M H : Type} (O : Oracle B M H) (P : Params)
    (child : Bool → B → Int → Int → Nat → SState B M H → Int × SState B M H)
    (PV : Bool) (b : B) (beta : Int) (ply : Nat) :
    List M → Int → Int → Option M → SState B M H →
      Int × Option M × SState B M H
  | [], alpha, bs, bm, s => (bs, bm, s)
  | mv :: rest, alpha, bs, bm, s =>
    let s1 : SState B M H :=
      { s with nnue := make_move P s.nnue (O.featureChanges b mv) }
    let s2 : SState B M H := { s1 with nodes := s1.nodes + 1 }
    let r := child PV (O.play b mv) (-beta) (-alpha) (ply + 1) s2
    let score := -r.1
    let s3 : SState B M H := { r.2 with nnue := r.2.nnue.pop }
    if score ≤ bs then qsLoop O P child PV b beta ply rest alpha bs bm s3
    else if score ≤ alpha then qsLoop O P child PV b beta ply rest alpha score bm s3
    else if beta ≤ score then (score, some mv, s3)
    else qsLoop O P child PV b beta ply rest score score (some mv) s3

/-- The TT-probe block of `qsearch` (search.rs lines 398–415): on a hit at
a non-PV node with a usable bound, the cutoff score; in every case the
recovered TT move. -/
def qsearchTTCut {M : Type} (PV : Bool) (tte : Option (TTEntryM M))
    (alpha beta : Int) (ply : Nat) : Option Int × Option M :=
  match tte with
  | some e =>
    if ¬PV then
      let tt_score := score_from_tt e.score ply
      (if e.flag = TTFlag.Exact
          ∨ (e.flag = TTFlag.LowerBound ∧ beta ≤ tt_score)
          ∨ (e.flag = TTFlag.UpperBound ∧ tt_score ≤ alpha)
        then some tt_score else none, e.mv)
    else (none, none)
  | none => (none, none)

/-- `Search::qsearch` (search.rs lines 363–457): periodic stop check (which
returns 0 when time is up), stop/max-ply escapes, stand-pat from the NNUE,
raise alpha, TT probe (non-PV cutoff), capture loop, and the guarded TT
store with flag `LowerBound` on `best_score >= beta`, else `UpperBound`. -/
def qsearchM {B M H : Type} (O : Oracle B M H) (P : Params) :
    Nat → Bool → B → Int → Int → Nat → SState B M H → Int × SState B M H
  | 0, _, _, _, _, _, s => (0, s)
  | fuel + 1, PV, b, alpha, beta, ply, s =>
    if s.timerSet ∧ s.nodes % 1024 = 0 ∧ O.timeUp s.nodes then
      (0, { s with stop := true })
    else if s.stop ∧ 0 < ply then (0, s)
    else
      let stm := O.sideToMove b
      if MAX_PLY ≤ ply then (s.nnue.evaluate P stm, s)
      else
        let hash := O.hashOf b
        let s := { s with seldepth := max s.seldepth ply }
        let stand_pat := s.nnue.evaluate P stm
        let alpha := max alpha stand_pat
        if beta ≤ stand_pat then (stand_pat, s)
        else
          let ttr := qsearchTTCut PV (s.tt hash) alpha beta ply
          match ttr.1 with
          | some sc => (sc, s)
          | none =>
            let captures := O.captureMoves b ttr.2 (s.killers ply) s.histTable
            let lres := qsLoop O P (qsearchM O P fuel) PV b beta ply captures
              alpha stand_pat none s
            let bs := lres.1
            let flag := if beta ≤ bs then TTFlag.LowerBound else TTFlag.UpperBound
            let s2 := lres.2.2
            let s3 : SState B M H := { s2 with
              tt := ttStore s2.tt s2.stop hash ⟨lres.2.1, score_to_tt bs ply, 0, flag⟩ }
            (bs, s3)

/-- The per-move score computation of the `pvsearch` move loop (search.rs
lines 266–306): full window for the first move; otherwise a zero-window
search at the LMR-reduced depth, re-searched full-window on
`alpha < score < beta`. -/
def scoreStep {B M H : Type} (O : Oracle B M H)
    (child : Bool → B → PVTableM M → Int → Int → Int → Nat → SState B M H →
      Int × PVTableM M × SState B M H)
    (PV : Bool) (new_b : B) (is_cap gives_check : Bool)
    (alpha beta depth : Int) (ply : Nat) (mp lmr_depth : Nat)
    (opv : PVTableM M) (s : SState B M H) : Int × PVTableM M × SState B M H :=
  if mp = 1 then
    let r := child PV new_b opv (-beta) (-alpha) (depth - 1) (ply + 1) s
    (-r.1, r.2.1, r.2.2)
  else
    let rr : Int :=
      if 3 ≤ depth ∧ lmr_depth < mp then
        min (max (O.lmrReduction depth mp + (if PV then 0 else 1)
          - (if is_cap then 1 else 0) - (if gives_check then 1 else 0)) 1) (depth - 1)
      else 1
    let r1 := child false new_b opv (-alpha - 1) (-alpha) (depth - rr) (ply + 1) s
    let score := -r1.1
    if alpha < score ∧ score < beta then
      let r2 := child PV new_b r1.2.1 (-beta) (-alpha) (depth - 1) (ply + 1) r1.2.2
      (-r2.1, r2.2.1, r2.2.2)
    else (score, r1.2.1, r1.2.2)

/-- The move loop of `pvsearch` (search.rs lines 244–342): for each picked
move, count and late-move-prune quiets (break before making the move),
make the move (`play_move` + `game_history.push` of the pre-move hash +
node count), score it, unmake (`game_history.pop` + `nnue.pop`), update
`best_score`/`alpha`/`best_move`/PV, and on `score >= beta` update killers
and history for quiets and break. `gives_check` reads the parent board's
checkers, exactly as the source line 264 does. -/
def pvsLoop {B M H : Type} (O : Oracle B M H) (P : Params)
    (child : Bool → B → PVTableM M → Int → Int → Int → Nat → SState B M H →
      Int × PVTableM M × SState B M H)
    (PV in_check : Bool) (b : B) (beta depth : Int)
    (ply hash qtc lmr_depth : Nat) :
    List M → Int → Int → Option M → Nat → Nat → List M → PVTableM M →
      PVTableM M → SState B M H → Int × Option M × PVTableM M × SState B M H
  | [], alpha, bs, bm, mp, qc, qm, pv, opv, s => (bs, bm, pv, s)
  | mv :: rest, alpha, bs, bm, mp, qc, qm, pv, opv, s =>
    let is_quiet := O.isQuiet b mv
    let qc := if is_quiet then qc + 1 else qc
    if is_quiet ∧ ¬PV ∧ ¬in_check ∧ qtc ≤ qc then (bs, bm, pv, s)
    else
      let qm := if is_quiet then qm ++ [mv] else qm
      let s1 : SState B M H :=
        { s with nnue := make_move P s.nnue (O.featureChanges b mv) }
      let mp := mp + 1
      let s2 : SState B M H :=
        { s1 with gameHistory := s1.gameHistory ++ [hash], nodes := s1.nodes + 1 }
      let gives_check := O.inCheck b
      let sr := scoreStep O child PV (O.play b mv) (O.isCapture b mv) gives_check
        alpha beta depth ply mp lmr_depth opv s2
      let score := sr.1
      let opv := sr.2.1
      let s3 : SState B M H := { sr.2.2 with
        gameHistory := sr.2.2.gameHistory.dropLast, nnue := sr.2.2.nnue.pop }
      if score ≤ bs then
        pvsLoop O P child PV in_check b beta depth ply hash qtc lmr_depth rest
          alpha bs bm mp qc qm pv opv s3
      else if score ≤ alpha then
        pvsLoop O P child PV in_check b beta depth ply hash qtc lmr_depth rest
          alpha score bm mp qc qm pv opv s3
      else
        let pv2 := pv.store mv opv
        if beta ≤ score then
          let s4 : SState B M H :=
            if is_quiet then
              let sA : SState B M H := { s3 with
                killers := Function.update s3.killers ply
                  (some mv, (s3.killers ply).1) }
              let sB : SState B M H := { sA with
                histTable := O.historyUpdate true b mv depth sA.histTable }
              { sB with
                histTable := qm.dropLast.foldl
                  (fun h m => O.historyUpdate false b m depth h) sB.histTable }
            else s3
          (score, some mv, pv2, s4)
        else
          pvsLoop O P child PV in_check b beta depth ply hash qtc lmr_depth rest
            score score (some mv) mp qc qm pv2 opv s3

/-- The TT-probe block of `pvsearch` (search.rs lines 155–178): the static
eval (the TT score on a hit, else the NNUE evaluation passed as
`fallbackEval`), the recovered TT move, and — at a non-PV node when the
stored depth suffices and the bound permits — the cutoff score. -/
def pvsearchTTProbe {M : Type} (PV : Bool) (tte : Option (TTEntryM M))
    (fallbackEval alpha beta depth : Int) (ply : Nat) :
    Int × Option M × Option Int :=
  match tte with
  | some e =>
    let tt_score := score_from_tt e.score ply
    (tt_score, e.mv,
      if ¬PV ∧ depth ≤ (e.depth : Int)
          ∧ (e.flag = TTFlag.Exact
            ∨ (e.flag = TTFlag.LowerBound ∧ beta ≤ tt_score)
            ∨ (e.flag = TTFlag.UpperBound ∧ tt_score ≤ alpha))
        then some tt_score else none)
  | none => (fallbackEval, none, none)

/-- The null-move-pruning block of `pvsearch` (search.rs lines 195–213):
when allowed, play the null move and search it zero-window at the reduced
depth; on `score >= beta` the early return value (capped at `beta` for
TB-range scores); the mutated `old_pv` and state thread onward in every
case. -/
def nmpStep {B M H : Type} (O : Oracle B M H)
    (child : Bool → B → PVTableM M → Int → Int → Int → Nat → SState B M H →
      Int × PVTableM M × SState B M H)
    (PV in_check : Bool) (b : B) (stm : Color) (old_pv : PVTableM M)
    (evalSc beta depth : Int) (ply : Nat) (s : SState B M H) :
    Option Int × PVTableM M × SState B M H :=
  if ¬PV ∧ ¬in_check ∧ 3 ≤ depth ∧ beta ≤ evalSc ∧ O.nonPawnMaterial b stm then
    let r := 3 + i32Div depth 3 + min 3 (i32Div (evalSc - beta) 200)
    let nres := child false (O.nullMoveD b) old_pv (-beta) (-beta + 1)
      (depth - r) (ply + 1) s
    let nscore := -nres.1
    if beta ≤ nscore then
      (some (if TB_WIN_IN_PLY ≤ nscore then beta else nscore),
        nres.2.1, nres.2.2)
    else (none, nres.2.1, nres.2.2)
  else (none, old_pv, s)

/-- `Search::pvsearch` (search.rs lines 90–361), fueled: periodic stop
check; stop/max-ply escapes; seldepth; depth clamp; PV clear; terminal
status (`Won` → `ply - MATE`, `Drawn` → the jittered draw score
`8 - (nodes & 7)`); off the root, the repetition draw and mate-distance
pruning; quiescence drop at depth 0 out of check; TT probe with the
non-PV depth-sufficient cutoff; eval stack and `improving`; null-move
pruning and reverse futility pruning at non-PV out-of-check nodes; the
move loop with check extension; and the guarded TT store with
`ttExitFlag`. -/
def pvsearchM {B M H : Type} (O : Oracle B M H) (P : Params) :
    Nat → Bool → B → PVTableM M → Int → Int → Int → Nat → SState B M H →
      Int × PVTableM M × SState B M H
  | 0, _, _, pv, _, _, _, _, s => (0, pv, s)
  | fuel + 1, PV, b, pv, alpha, beta, depth, ply, s =>
    let s := if s.timerSet ∧ s.nodes % 1024 = 0 ∧ O.timeUp s.nodes then
      { s with stop := true } else s
    if s.stop ∧ 0 < ply then (0, pv, s)
    else
      let stm := O.sideToMove b
      if MAX_PLY ≤ ply then (s.nnue.evaluate P stm, pv, s)
      else
        let hash := O.hashOf b
        let s := { s with seldepth := max s.seldepth ply }
        let depth := max depth 0
        let old_pv : PVTableM M := PVTableM.new
        let pv := { pv with length := 0 }
        match O.statusOf b with
        | GStatus.Won => ((ply : Int) - MATE, pv, s)
        | GStatus.Drawn => ((8 : Int) - ((s.nodes % 8 : Nat) : Int), pv, s)
        | GStatus.Ongoing =>
          if 0 < ply ∧ repetitionM s.gameHistory (O.halfmoveClock b) hash then
            ((8 : Int) - ((s.nodes % 8 : Nat) : Int), pv, s)
          else if 0 < ply ∧
              min beta (MATE - ((ply : Int) + 1)) ≤ max alpha ((ply : Int) - MATE) then
            (max alpha ((ply : Int) - MATE), pv, s)
          else
            let in_check := O.inCheck b
            if depth = 0 ∧ ¬in_check then
              let q := qsearchM O P fuel PV b alpha beta ply s
              (q.1, pv, q.2)
            else
              let ttr := pvsearchTTProbe PV (s.tt hash) (s.nnue.evaluate P stm)
                alpha beta depth ply
              match ttr.2.2 with
              | some sc => (sc, pv, s)
              | none =>
                let evalSc := ttr.1
                let tt_move := ttr.2.1
                let s := { s with stackEval := Function.update s.stackEval ply evalSc }
                let improving := 1 < ply ∧ ¬in_check ∧ s.stackEval (ply - 2) < evalSc
                let rfp_div : Int := if improving then 2 else 1
                let nmp := nmpStep O (pvsearchM O P fuel) PV in_check b stm old_pv
                  evalSc beta depth ply s
                match nmp.1 with
                | some sc => (sc, pv, nmp.2.2)
                | none =>
                  let old_pv := nmp.2.1
                  let s := nmp.2.2
                  if ¬PV ∧ ¬in_check ∧ depth < 9
                      ∧ beta + i32Div (RFP_MARGIN * depth) rfp_div ≤ evalSc then
                    (evalSc, pv, s)
                  else
                    let old_alpha := alpha
                    let move_list := O.allMoves b tt_move (s.killers ply) s.histTable
                    let lmr_depth : Nat := if PV then 5 else 3
                    let qtc : Nat := if 1 ≤ depth ∧ depth ≤ 3 then LMP_TABLE depth.toNat
                      else MAX_MOVES_POSITION
                    let depth := depth + (if in_check then 1 else 0)
                    let lres := pvsLoop O P (pvsearchM O P fuel) PV in_check b beta
                      depth ply hash qtc lmr_depth move_list alpha (-INFINITY) none
                      0 0 [] pv old_pv s
                    let bs := lres.1
                    let flag := ttExitFlag bs beta old_alpha
                    let sf := lres.2.2.2
                    let sf2 : SState B M H := { sf with
                      tt := ttStore sf.tt sf.stop hash
                        ⟨lres.2.1, score_to_tt bs ply, depth.toNat % 256, flag⟩ }
                    (bs, lres.2.2.1, sf2)

/-! ## C8: every push is matched by exactly one pop (frame preservation) -/

theorem qsLoop_current {B M H : Type} (O : Oracle B M H) (P : Params)
    (child : Bool → B → Int → Int → Nat → SState B M H → Int × SState B M H)
    (Hc : ∀ PV b alpha beta ply s,
      (child PV b alpha beta ply s).2.nnue.current_acc = s.nnue.current_acc)
    (PV : Bool) (b : B) (beta : Int) (ply : Nat) :
    ∀ (moves : List M) (alpha bs : Int) (bm : Option M) (s : SState B M H),
      (qsLoop O P child PV b beta ply moves alpha bs bm s).2.2.nnue.current_acc
        = s.nnue.current_acc := by
  intro moves
  induction moves with
  | nil => intro alpha bs bm s; rfl
  | cons mv rest ih =>
    intro alpha bs bm s
    simp only [qsLoop]
    split_ifs <;>
      simp only [ih, NNUEState.pop, Hc, make_move_current] <;> omega

theorem qsLoop_histlen {B M H : Type} (O : Oracle B M H) (P : Params)
    (child : Bool → B → Int → Int → Nat → SState B M H → Int × SState B M H)
    (Hc : ∀ PV b alpha beta ply s,
      (child PV b alpha beta ply s).2.gameHistory.length = s.gameHistory.length)
    (PV : Bool) (b : B) (beta : Int) (ply : Nat) :
    ∀ (moves : List M) (alpha bs : Int) (bm : Option M) (s : SState B M H),
      (qsLoop O P child PV b beta ply moves alpha bs bm s).2.2.gameHistory.length
        = s.gameHistory.length := by
  intro moves
  induction moves with
  | nil => intro alpha bs bm s; rfl
  | cons mv rest ih =>
    intro alpha bs bm s
    simp only [qsLoop]
    split_ifs <;> simp only [ih, Hc]

theorem qsearchM_current {B M H : Type} (O : Oracle B M H) (P : Params) :
    ∀ (fuel : Nat) (PV : Bool) (b : B) (alpha beta : Int) (ply : Nat)
      (s : SState B M H),
      (qsearchM O P fuel PV b alpha beta ply s).2.nnue.current_acc
        = s.nnue.current_acc := by
  intro fuel
  induction fuel with
  | zero => intros; rfl
  | succ fuel ih =>
    intro PV b alpha beta ply s
    simp only [qsearchM]
    split_ifs <;>
      first
      | rfl
      | (split <;>
          first
          | rfl
          | simp only [qsLoop_current O P (qsearchM O P fuel) ih])

theorem qsearchM_histlen {B M H : Type} (O : Oracle B M H) (P : Params) :
    ∀ (fuel : Nat) (PV : Bool) (b : B) (alpha beta : Int) (ply : Nat)
      (s : SState B M H),
      (qsearchM O P fuel PV b alpha beta ply s).2.gameHistory.length
        = s.gameHistory.length := by
  intro fuel
  induction fuel with
  | zero => intros; rfl
  | succ fuel ih =>
    intro PV b alpha beta ply s
    simp only [qsearchM]
    split_ifs <;>
      first
      | rfl
      | (split <;>
          first
          | rfl
          | simp only [qsLoop_histlen O P (qsearchM O P fuel) ih])

theorem scoreStep_current {B M H : Type} (O : Oracle B M H)
    (child : Bool → B → PVTableM M → Int → Int → Int → Nat → SState B M H →
      Int × PVTableM M × SState B M H)
    (Hc : ∀ PV b pv alpha beta depth ply s,
      (child PV b pv alpha beta depth ply s).2.2.nnue.current_acc
        = s.nnue.current_acc) :
    ∀ (PV : Bool) (new_b : B) (is_cap gives_check : Bool) (alpha beta depth : Int)
      (ply mp lmr_depth : Nat) (opv : PVTableM M) (s : SState B M H),
      (scoreStep O child PV new_b is_cap gives_check alpha beta depth ply mp
        lmr_depth opv s).2.2.nnue.current_acc = s.nnue.current_acc := by
  intros
  simp only [scoreStep]
  split_ifs <;> simp only [Hc]

theorem scoreStep_histlen {B M H : Type} (O : Oracle B M H)
    (child : Bool → B → PVTableM M → Int → Int → Int → Nat → SState B M H →
      Int × PVTableM M × SState B M H)
    (Hc : ∀ PV b pv alpha beta depth ply s,
      (child PV b pv alpha beta depth ply s).2.2.gameHistory.length
        = s.gameHistory.length) :
    ∀ (PV : Bool) (new_b : B) (is_cap gives_check : Bool) (alpha beta depth : Int)
      (ply mp lmr_depth : Nat) (opv : PVTableM M) (s : SState B M H),
      (scoreStep O child PV new_b is_cap gives_check alpha beta depth ply mp
        lmr_depth opv s).2.2.gameHistory.length = s.gameHistory.length := by
  intros
  simp only [scoreStep]
  split_ifs <;> simp only [Hc]

set_option maxHeartbeats 2000000 in
theorem pvsLoop_current {B M H : Type} (O : Oracle B M H) (P : Params)
    (child : Bool → B → PVTableM M → Int → Int → Int → Nat → SState B M H →
      Int × PVTableM M × SState B M H)
    (Hc : ∀ PV b pv alpha beta depth ply s,
      (child PV b pv alpha beta depth ply s).2.2.nnue.current_acc
        = s.nnue.current_acc) :
    ∀ (PV in_check : Bool) (b : B) (beta depth : Int)
      (ply hash qtc lmr_depth : Nat) (moves : List M) (alpha bs : Int)
      (bm : Option M) (mp qc : Nat) (qm : List M) (pv opv : PVTableM M)
      (s : SState B M H),
      (pvsLoop O P child PV in_check b beta depth ply hash qtc lmr_depth moves
        alpha bs bm mp qc qm pv opv s).2.2.2.nnue.current_acc
        = s.nnue.current_acc := by
  intro PV in_check b beta depth ply hash qtc lmr_depth moves
  induction moves with
  | nil => intros; rfl
  | cons mv rest ih =>
    intro alpha bs bm mp qc qm pv opv s
    simp only [pvsLoop]
    split_ifs <;>
      simp only [ih, NNUEState.pop, scoreStep_current O child Hc,
        make_move_current] <;>
      omega

set_option maxHeartbeats 2000000 in
theorem pvsLoop_histlen {B M H : Type} (O : Oracle B M H) (P : Params)
    (child : Bool → B → PVTableM M → Int → Int → Int → Nat → SState B M H →
      Int × PVTableM M × SState B M H)
    (Hc : ∀ PV b pv alpha beta depth ply s,
      (child PV b pv alpha beta depth ply s).2.2.gameHistory.length
        = s.gameHistory.length) :
    ∀ (PV in_check : Bool) (b : B) (beta depth : Int)
      (ply hash qtc lmr_depth : Nat) (moves : List M) (alpha bs : Int)
      (bm : Option M) (mp qc : Nat) (qm : List M) (pv opv : PVTableM M)
      (s : SState B M H),
      (pvsLoop O P child PV in_check b beta depth ply hash qtc lmr_depth moves
        alpha bs bm mp qc qm pv opv s).2.2.2.gameHistory.length
        = s.gameHistory.length := by
  intro PV in_check b beta depth ply hash qtc lmr_depth moves
  induction moves with
  | nil => intros; rfl
  | cons mv rest ih =>
    intro alpha bs bm mp qc qm pv opv s
    simp only [pvsLoop]
    split_ifs <;>
      simp only [ih, List.length_dropLast, scoreStep_histlen O child Hc,
        List.length_append, List.length_cons, List.length_nil] <;>
      omega

theorem nmpStep_current {B M H : Type} (O : Oracle B M H)
    (child : Bool → B → PVTableM M → Int → Int → Int → Nat → SState B M H →
      Int × PVTableM M × SState B M H)
    (Hc : ∀ PV b pv alpha beta depth ply s,
      (child PV b pv alpha beta depth ply s).2.2.nnue.current_acc
        = s.nnue.current_acc) :
    ∀ (PV in_check : Bool) (b : B) (stm : Color) (old_pv : PVTableM M)
      (evalSc beta depth : Int) (ply : Nat) (s : SState B M H),
      (nmpStep O child PV in_check b stm old_pv evalSc beta depth ply
        s).2.2.nnue.current_acc = s.nnue.current_acc := by
  intros
  simp only [nmpStep]
  split_ifs <;> simp only [Hc]

theorem nmpStep_histlen {B M H : Type} (O : Oracle B M H)
    (child : Bool → B → PVTableM M → Int → Int → Int → Nat → SState B M H →
      Int × PVTableM M × SState B M H)
    (Hc : ∀ PV b pv alpha beta depth ply s,
      (child PV b pv alpha beta depth ply s).2.2.gameHistory.length
        = s.gameHistory.length) :
    ∀ (PV in_check : Bool) (b : B) (stm : Color) (old_pv : PVTableM M)
      (evalSc beta depth : Int) (ply : Nat) (s : SState B M H),
      (nmpStep O child PV in_check b stm old_pv evalSc beta depth ply
        s).2.2.gameHistory.length = s.gameHistory.length := by
  intros
  simp only [nmpStep]
  split_ifs <;> simp only [Hc]

set_option maxHeartbeats 4000000 in
theorem pvsearchM_current {B M H : Type} (O : Oracle B M H) (P : Params) :
    ∀ (fuel : Nat) (PV : Bool) (b : B) (pv : PVTableM M) (alpha beta depth : Int)
      (ply : Nat) (s : SState B M H),
      (pvsearchM O P fuel PV b pv alpha beta depth ply s).2.2.nnue.current_acc
        = s.nnue.current_acc := by
  intro fuel
  induction fuel with
  | zero => intros; rfl
  | succ fuel ih =>
    intro PV b pv alpha beta depth ply s
    have hq := qsearchM_current O P fuel
    have hnmp := nmpStep_current O (pvsearchM O P fuel) ih
    have hloop := pvsLoop_current O P (pvsearchM O P fuel) ih
    simp only [pvsearchM]
    repeat' split
    all_goals try rfl
    all_goals simp only [hq, hnmp, hloop]

set_option maxHeartbeats 4000000 in
theorem pvsearchM_histlen {B M H : Type} (O : Oracle B M H) (P : Params) :
    ∀ (fuel : Nat) (PV : Bool) (b : B) (pv : PVTableM M) (alpha beta depth : Int)
      (ply : Nat) (s : SState B M H),
      (pvsearchM O P fuel PV b pv alpha beta depth ply s).2.2.gameHistory.length
        = s.gameHistory.length := by
  intro fuel
  induction fuel with
  | zero => intros; rfl
  | succ fuel ih =>
    intro PV b pv alpha beta depth ply s
    have hq := qsearchM_histlen O P fuel
    have hnmp := nmpStep_histlen O (pvsearchM O P fuel) ih
    have hloop := pvsLoop_histlen O P (pvsearchM O P fuel) ih
    simp only [pvsearchM]
    repeat' split
    all_goals try rfl
    all_goals simp only [hq, hnmp, hloop]

/-- C8: every call to `pvsearch` and to `qsearch` returns with
`nnue.current_acc` and the length of `game_history` equal to their values
at entry — every push of an accumulator (`play_move`) or of a hash is
matched by exactly one pop on every path, including beta cutoffs,
late-move-pruning breaks and the stop flag. -/
theorem c8_push_pop_balanced {B M H : Type} (O : Oracle B M H) (P : Params)
    (fuel : Nat) (PV : Bool) (b : B) (pv : PVTableM M) (alpha beta depth : Int)
    (ply : Nat) (s : SState B M H) :
    ((pvsearchM O P fuel PV b pv alpha beta depth ply s).2.2.nnue.current_acc
        = s.nnue.current_acc
      ∧ (pvsearchM O P fuel PV b pv alpha beta depth ply s).2.2.gameHistory.length
        = s.gameHistory.length)
    ∧ ((qsearchM O P fuel PV b alpha beta ply s).2.nnue.current_acc
        = s.nnue.current_acc
      ∧ (qsearchM O P fuel PV b alpha beta ply s).2.gameHistory.length
        = s.gameHistory.length) :=
  ⟨⟨pvsearchM_current O P fuel PV b pv alpha beta depth ply s,
    pvsearchM_histlen O P fuel PV b pv alpha beta depth ply s⟩,
   ⟨qsearchM_current O P fuel PV b alpha beta ply s,
    qsearchM_histlen O P fuel PV b alpha beta ply s⟩⟩

/-- C4: the repetition predicate holds exactly when the current hash occurs
in `game_history` among the last `halfmove_clock` entries, skipping only
the most recent entry (the entry the code's comment calls "the current
position"); and at every non-root, non-stopped, non-terminal node a
two-fold repeat makes `pvsearch` return the near-zero draw score
`8 - (nodes & 7)`, which lies in `[1, 8]`. -/
theorem c4_repetition_draw :
    (∀ (hist : List Nat) (hmc hash : Nat),
      repetitionM hist hmc hash = true ↔
        ∃ i, 1 ≤ i ∧ i < hmc ∧ hist.reverse[i]? = some hash)
    ∧ ∀ {B M H : Type} (O : Oracle B M H) (P : Params) (fuel : Nat) (PV : Bool)
        (b : B) (pv : PVTableM M) (alpha beta depth : Int) (ply : Nat)
        (s : SState B M H),
        s.stop = false → s.timerSet = false → 0 < ply → ply < MAX_PLY →
        O.statusOf b = GStatus.Ongoing →
        repetitionM s.gameHistory (O.halfmoveClock b) (O.hashOf b) = true →
        (pvsearchM O P (fuel + 1) PV b pv alpha beta depth ply s).1
            = 8 - ((s.nodes % 8 : Nat) : Int)
          ∧ 1 ≤ (8 : Int) - ((s.nodes % 8 : Nat) : Int)
          ∧ (8 : Int) - ((s.nodes % 8 : Nat) : Int) ≤ 8 := by
  constructor
  · exact repetitionM_iff
  · intro B M H O P fuel PV b pv alpha beta depth ply s hstop htimer hply hplylt
      hst hrep
    have ht1 : ¬(s.timerSet = true ∧ s.nodes % 1024 = 0
        ∧ O.timeUp s.nodes = true) := by simp [htimer]
    have ht2 : ¬(s.stop = true ∧ 0 < ply) := by simp [hstop]
    have ht3 : ¬(MAX_PLY ≤ ply) := by omega
    refine ⟨?_, by omega, by omega⟩
    simp only [pvsearchM, if_neg ht1, if_neg ht2, if_neg ht3, hst]
    rw [if_pos ⟨hply, hrep⟩]

/-- A concrete trivial oracle and search state to exercise the repetition
early return: the current hash 7 occurred two plies ago within the
halfmove-clock window. -/
def oracle0 : Oracle Unit Unit Unit :=
  { sideToMove := fun _ => Color.White
    hashOf := fun _ => 7
    halfmoveClock := fun _ => 2
    statusOf := fun _ => GStatus.Ongoing
    inCheck := fun _ => false
    nonPawnMaterial := fun _ _ => false
    nullMoveD := fun b => b
    play := fun b _ => b
    featureChanges := fun _ _ => ([], [])
    isQuiet := fun _ _ => true
    isCapture := fun _ _ => false
    allMoves := fun _ _ _ _ => []
    captureMoves := fun _ _ _ _ => []
    lmrReduction := fun _ _ => 0
    historyUpdate := fun _ _ _ _ h => h
    timeUp := fun _ => false }

def sstate0 : SState Unit Unit Unit :=
  { stop := false
    timerSet := false
    nodes := 3
    seldepth := 0
    gameHistory := [7, 9]
    killers := fun _ => (none, none)
    histTable := ()
    stackEval := fun _ => 0
    tt := fun _ => none
    nnue := nn0 }

theorem c4_repetition_draw_witness :
    repetitionM [7, 9] 2 7 = true ∧
    (pvsearchM oracle0 P0 (0 + 1) true () PVTableM.new (-INFINITY) INFINITY 1 1
      sstate0).1 = 5 := by
  constructor
  · exact (c4_repetition_draw.1 [7, 9] 2 7).mpr ⟨1, le_refl 1, by norm_num, rfl⟩
  · have h := (c4_repetition_draw.2 oracle0 P0 0 true () PVTableM.new
      (-INFINITY) INFINITY 1 1 sstate0 rfl rfl (by norm_num)
      (by norm_num [MAX_PLY]) rfl (by decide)).1
    simpa [sstate0] using h
